import Mathlib

/-!
Verification of the frame-descriptor subsystem of the OCaml multicore
runtime (runtime/frame_descriptors.c): the variable-length record parser
(next_frame_descr), the open-addressing hash index builder
(build_frame_descriptors), the lookup routine (caml_find_frame_descr),
and the versioned-table manager (caml_init_frame_descriptors,
caml_register_frametable, caml_get_frame_descrs).

Modelling conventions:
* machine integers are Nat; uintnat is 64 bits, so the all-ones value
  (uintnat)(-1) is 2 ^ 64 - 1;
* C while-loops are translated as fuel-indexed structural recursions, the
  fuel being the termination device; theorems show the fuel used by the
  embedding suffices;
* the hash table array is a List (Option frame_descr); NULL slots are none;
* the hash function Hash_retaddr and the frame_descr struct layout live in
  a header file that is not part of the sources; they are modelled from the
  specification (abstract hash masked with the table mask; the documented
  byte layout of records).
-/

/-- The sentinel value (uintnat)(-1) stored in free_prev_after_cycle once the
previous table version has been freed (64-bit uintnat). -/
def No_need_to_free : Nat := 2 ^ 64 - 1

/-- A frame descriptor as an element of the index: identified by its return
address, carrying its size and flags word and live-offset count as payload so
that distinct records at distinct locations are distinct values. -/
structure frame_descr where
  retaddr : Nat
  frame_size : Nat
  num_live : Nat
deriving DecidableEq, Repr

/-- The published lookup structure: descriptor array plus bit mask
(struct caml_frame_descrs). -/
structure caml_frame_descrs where
  descriptors : List (Option frame_descr)
  mask : Nat
deriving DecidableEq, Repr

/-- Modelled from the spec: Hash_retaddr is defined in the frame_descriptors
header, which is not among the sources; the spec says only that the slot is
hash(retaddr) masked with tblsize - 1, so the hash proper is an abstract
function parameter. -/
def Hash_retaddr (hash : Nat → Nat) (addr mask : Nat) : Nat :=
  hash addr &&& mask

/-- The table sizing loop of build_frame_descriptors:
tblsize = 4; while (tblsize < 2 * num_descr) tblsize *= 2.
Fuel-indexed; build_frame_descriptors passes fuel 2 * num_descr, which is
shown sufficient. -/
def tblsize_loop (target : Nat) : Nat → Nat → Nat
  | t, 0 => t
  | t, fuel + 1 => if t < target then tblsize_loop target (2 * t) fuel else t

/-- The inner probing loop of the insertion part of build_frame_descriptors:
while (table.descriptors[h] != NULL) h = (h+1) & table.mask.
Fuel-indexed; the builder passes fuel tblsize, which is shown sufficient. -/
def probe_free (descriptors : List (Option frame_descr)) (mask : Nat) :
    Nat → Nat → Nat
  | h, 0 => h
  | h, fuel + 1 =>
    match descriptors.getD h none with
    | some _ => probe_free descriptors mask ((h + 1) &&& mask) fuel
    | none => h

/-- One insertion of the fill loop of build_frame_descriptors: probe from
Hash_retaddr(d.retaddr, mask) for a free slot and store d there. -/
def insert_descr (hash : Nat → Nat) (t : caml_frame_descrs)
    (d : frame_descr) : caml_frame_descrs :=
  let h := probe_free t.descriptors t.mask
    (Hash_retaddr hash d.retaddr t.mask) t.descriptors.length
  ⟨t.descriptors.set h (some d), t.mask⟩

/-- build_frame_descriptors: count the descriptors of every registered table,
size the hash table as a power of two at least twice that count (minimum 4),
allocate it empty, then insert every descriptor of every table in chain
order. A raw table is modelled by its list of records (the leading count word
of the C layout is the list length). -/
def build_frame_descriptors (hash : Nat → Nat)
    (frametables : List (List frame_descr)) : caml_frame_descrs :=
  let num_descr := (frametables.map List.length).sum
  let tblsize := tblsize_loop (2 * num_descr) 4 (2 * num_descr)
  let t0 : caml_frame_descrs := ⟨List.replicate tblsize none, tblsize - 1⟩
  frametables.foldl (fun t tbl => tbl.foldl (insert_descr hash) t) t0

/-- The probe loop of caml_find_frame_descr, fuel-indexed. The outer Option
is the termination device: some r means the loop returned r within the fuel
(r = none being the NULL return at an empty slot, r = some d the found
descriptor); none means the fuel ran out. -/
def find_loop (descriptors : List (Option frame_descr)) (mask pc : Nat) :
    Nat → Nat → Option (Option frame_descr)
  | _, 0 => none
  | h, fuel + 1 =>
    match descriptors.getD h none with
    | none => some none
    | some d =>
      if d.retaddr = pc then some (some d)
      else find_loop descriptors mask pc ((h + 1) &&& mask) fuel

/-- caml_find_frame_descr: probe from Hash_retaddr(pc, mask) until an empty
slot (lookup miss, NULL) or a descriptor whose retaddr equals pc. The fuel is
the table length; termination theorems show it suffices. -/
def caml_find_frame_descr (hash : Nat → Nat) (fds : caml_frame_descrs)
    (pc : Nat) : Option (Option frame_descr) :=
  find_loop fds.descriptors fds.mask pc
    (Hash_retaddr hash pc fds.mask) fds.descriptors.length

/-- All records of the registration chain, in chain order. -/
def allRecords (frametables : List (List frame_descr)) : List frame_descr :=
  frametables.flatten

/-- Content of slot i of the table (NULL slots and out-of-range reads give
none). -/
def slotGet (t : caml_frame_descrs) (i : Nat) : Option frame_descr :=
  t.descriptors.getD i none

/-- Number of occupied (non-NULL) slots. -/
def occupied (t : caml_frame_descrs) : Nat :=
  t.descriptors.countP fun o => o.isSome

/-! ## Record parser (next_frame_descr) -/

/-- Modelled from the spec: the Align_to macro lives in a header that is not
among the sources; the spec says to align the cursor up to the given
boundary, so this rounds p up to the next multiple of a. -/
def align_to (p a : Nat) : Nat := (p + a - 1) / a * a

/-- Byte-addressed memory as seen by the parser: a byte read and an unsigned
16-bit read (the parser reads the two 16-bit header fields and the one-byte
allocation count; no other reads occur). -/
structure Mem where
  byteAt : Nat → Nat
  u16At : Nat → Nat

/-- An abstract frame record, for stating what memory at an address encodes:
the size and flags word, the live offsets, and the allocation-length table
(empty when the flag-bit-1 is clear). -/
structure FrameRecord where
  frame_size : Nat
  live_ofs : List Nat
  alloc_lengths : List Nat
deriving DecidableEq, Repr

/-- Well-formed record fields: 16-bit size and flags word, 16-bit live count,
8-bit allocation count, and no allocation table when its presence bit
(bit 1 of frame_size) is clear. -/
def FrameRecordWF (r : FrameRecord) : Prop :=
  r.frame_size < 2 ^ 16 ∧ r.live_ofs.length < 2 ^ 16 ∧
  r.alloc_lengths.length < 2 ^ 8 ∧
  (r.frame_size &&& 2 = 0 → r.alloc_lengths = [])

/-- Memory M encodes record r at address a: the frame_size field at byte
offset 8 (after the word-sized retaddr), the num_live field at offset 10, the
live_ofs array of 16-bit entries from offset 12, and, when the allocation
table is present, its one-byte count right after the live offsets. -/
def encodesAt (M : Mem) (a : Nat) (r : FrameRecord) : Prop :=
  M.u16At (a + 8) = r.frame_size ∧
  M.u16At (a + 10) = r.live_ofs.length ∧
  (r.frame_size &&& 2 ≠ 0 →
    M.byteAt (a + 12 + 2 * r.live_ofs.length) = r.alloc_lengths.length)

/-- next_frame_descr: from record address d, skip the fixed header
(8-byte retaddr, 2-byte frame_size, 2-byte num_live) and the num_live 16-bit
live offsets; if bit 1 of frame_size is set, read the one-byte num_allocs and
skip num_allocs + 1 bytes; if bit 0 is set and frame_size is not the all-ones
16-bit sentinel, align to 4 bytes and skip one 4-byte debug word per
allocation entry (one word when no allocation table); finally align to the
8-byte pointer width. -/
def next_frame_descr (M : Mem) (d : Nat) : Nat :=
  let frame_size := M.u16At (d + 8)
  let num_live := M.u16At (d + 10)
  let p0 := d + 12 + 2 * num_live
  let num_allocs := if frame_size &&& 2 ≠ 0 then M.byteAt p0 else 0
  let p1 := if frame_size &&& 2 ≠ 0 then p0 + num_allocs + 1 else p0
  let p2 :=
    if frame_size &&& 1 ≠ 0 ∧ frame_size ≠ 65535 then
      align_to p1 4 + 4 * (if frame_size &&& 2 ≠ 0 then num_allocs else 1)
    else p1
  align_to p2 8

/-- The address of the record following a record r placed at address a,
written from the documented layout (the comparand for the parser): header and
live offsets, then the optional count byte and allocation-length bytes, then
the optional 4-byte-aligned debug words, then pointer-width alignment. -/
def next_record_addr (r : FrameRecord) (a : Nat) : Nat :=
  let p0 := a + 12 + 2 * r.live_ofs.length
  let p1 := if r.frame_size &&& 2 ≠ 0 then
      p0 + 1 + r.alloc_lengths.length else p0
  let p2 :=
    if r.frame_size &&& 1 ≠ 0 ∧ r.frame_size ≠ 65535 then
      align_to p1 4 +
        4 * (if r.frame_size &&& 2 ≠ 0 then r.alloc_lengths.length else 1)
    else p1
  align_to p2 8

/-! ## Versioned table manager -/

/-- struct frametable_version: the published table, the cycle marker after
which the previous version may be freed (No_need_to_free once freed), and the
link to the previous version. -/
inductive frametable_version : Type where
  | mk (table : caml_frame_descrs) (free_prev_after_cycle : Nat)
      (prev : Option frametable_version)

def frametable_version.table : frametable_version → caml_frame_descrs
  | .mk t _ _ => t

def frametable_version.free_prev_after_cycle : frametable_version → Nat
  | .mk _ c _ => c

def frametable_version.prev : frametable_version → Option frametable_version
  | .mk _ _ p => p

/-- The mutable global state of the subsystem: the registration chain
(static variable frametables, most recent first) and the current version
pointer (current_frametable; none models the initial 0). -/
structure GlobalState where
  frametables : List (List frame_descr)
  current : Option frametable_version

/-- caml_init_frame_descriptors: cons every boot table onto the chain (so the
chain holds them in reverse boot order), build the first version with marker
No_need_to_free and no predecessor, and publish it. -/
def caml_init_frame_descriptors (hash : Nat → Nat)
    (boot : List (List frame_descr)) : GlobalState :=
  let chain := boot.foldl (fun acc t => t :: acc) []
  ⟨chain, some (.mk (build_frame_descriptors hash chain) No_need_to_free none)⟩

/-- caml_register_frametable: cons the new table onto the chain, rebuild the
whole index, and publish a new version whose marker is the completed-cycles
count observed now and whose predecessor is the previously current version. -/
def caml_register_frametable (hash : Nat → Nat) (cycles : Nat)
    (table : List frame_descr) (s : GlobalState) : GlobalState :=
  let chain := table :: s.frametables
  ⟨chain, some (.mk (build_frame_descriptors hash chain) cycles s.current)⟩

/-- caml_get_frame_descrs: read the current version; if its marker is
strictly below the observed completed-cycles count and it still has a
predecessor, free that predecessor (drop the link) and set the marker to
No_need_to_free; return the current table. Freeing is modelled by dropping
the only reference. -/
def caml_get_frame_descrs (cycles : Nat) (s : GlobalState) :
    Option caml_frame_descrs × GlobalState :=
  match s.current with
  | none => (none, s)
  | some ft =>
    if ft.free_prev_after_cycle < cycles then
      match ft.prev with
      | some _ =>
        (some ft.table,
          ⟨s.frametables, some (.mk ft.table No_need_to_free none)⟩)
      | none => (some ft.table, s)
    else (some ft.table, s)

/-- Run a sequence of registrations, each stamped with the cycle count it
observes, from a freshly initialised state. -/
def runRegistrations (hash : Nat → Nat) (boot : List (List frame_descr))
    (regs : List (Nat × List frame_descr)) : GlobalState :=
  regs.foldl (fun s cr => caml_register_frametable hash cr.1 cr.2 s)
    (caml_init_frame_descriptors hash boot)

/-- The tables of the whole version chain, newest first. -/
def chainTables : Option frametable_version → List caml_frame_descrs
  | none => []
  | some (.mk t _ p) => t :: chainTables p

/-- Reachability by the three operations. The completed-major-cycles counter
starts at zero and is incremented once per completed major collection, so as
a 64-bit uintnat it is always at most the all-ones value, and at a
registration it is strictly below it. -/
inductive Reachable (hash : Nat → Nat) : GlobalState → Prop where
  | init (boot) : Reachable hash (caml_init_frame_descriptors hash boot)
  | register (c tbl s) : Reachable hash s → c < No_need_to_free →
      Reachable hash (caml_register_frametable hash c tbl s)
  | get (c s) : Reachable hash s → c ≤ No_need_to_free →
      Reachable hash (caml_get_frame_descrs c s).2

/-- The structural invariant of a version chain: a marker equal to
No_need_to_free exactly when there is no predecessor, at every link. -/
def VersionInv : frametable_version → Prop
  | .mk _ marker none => marker = No_need_to_free
  | .mk _ marker (some p) => marker ≠ No_need_to_free ∧ VersionInv p

/-! ## Arithmetic and list helpers -/

/-- Masking with 2 ^ k - 1 is reduction modulo 2 ^ k. -/
lemma land_mask (x k : Nat) : x &&& (2 ^ k - 1) = x % 2 ^ k :=
  Nat.and_pow_two_sub_one_eq_mod x k

lemma add_mod_left_absorb (a l n : Nat) : (a % n + l) % n = (a + l) % n :=
  (Nat.mod_modEq a n).add_right l

lemma path_mod_inj {n l m : Nat} (h0 : Nat) (hl : l < n) (hm : m < n)
    (h : (h0 + l) % n = (h0 + m) % n) : l = m := by
  have h2 : l ≡ m [MOD n] := Nat.ModEq.add_left_cancel' h0 h
  have h3 : l % n = m % n := h2
  rw [Nat.mod_eq_of_lt hl, Nat.mod_eq_of_lt hm] at h3
  exact h3

lemma exists_shift {n h0 j : Nat} (h0n : h0 < n) (hj : j < n) :
    ∃ m, m < n ∧ (h0 + m) % n = j := by
  refine ⟨(j + n - h0) % n, Nat.mod_lt _ (by omega), ?_⟩
  have h1 : (h0 + (j + n - h0) % n) % n = (h0 + (j + n - h0)) % n := by
    conv_lhs => rw [Nat.add_mod]
    conv_rhs => rw [Nat.add_mod]
    rw [Nat.mod_mod_of_dvd]
    exact dvd_refl n
  have h2 : h0 + (j + n - h0) = j + n := by omega
  rw [h1, h2, Nat.add_mod_right, Nat.mod_eq_of_lt hj]

lemma getD_set_self (l : List (Option frame_descr)) (i : Nat)
    (a : Option frame_descr) (h : i < l.length) :
    (l.set i a).getD i none = a := by
  simp [List.getD_eq_getElem?_getD, List.getElem?_set_self h]

lemma getD_set_ne (l : List (Option frame_descr)) {i j : Nat}
    (a : Option frame_descr) (h : i ≠ j) :
    (l.set i a).getD j none = l.getD j none := by
  simp [List.getD_eq_getElem?_getD, List.getElem?_set_ne h]

lemma getD_isSome_lt (l : List (Option frame_descr)) {i : Nat}
    {d : frame_descr} (h : l.getD i none = some d) : i < l.length := by
  by_contra hge
  push_neg at hge
  rw [List.getD_eq_getElem?_getD, List.getElem?_eq_none hge] at h
  simp at h

lemma exists_none_of_countP_lt :
    ∀ l : List (Option frame_descr),
      l.countP (fun o => o.isSome) < l.length →
      ∃ j, j < l.length ∧ l.getD j none = none := by
  intro l
  induction l with
  | nil => intro h; simp at h
  | cons o tl ih =>
    intro h
    cases o with
    | none => exact ⟨0, by simp, by simp⟩
    | some d =>
      rw [List.countP_cons] at h
      simp at h
      obtain ⟨j, hj, hg⟩ := ih (by omega)
      exact ⟨j + 1, by simpa using hj, by simpa using hg⟩

lemma countP_set_some :
    ∀ (l : List (Option frame_descr)) (i : Nat) (d : frame_descr),
      i < l.length → l.getD i none = none →
      (l.set i (some d)).countP (fun o => o.isSome) =
        l.countP (fun o => o.isSome) + 1 := by
  intro l
  induction l with
  | nil => intro i d h; simp at h
  | cons o tl ih =>
    intro i d hi he
    cases i with
    | zero =>
      have : o = none := by simpa using he
      subst this
      simp [List.countP_cons]
    | succ i' =>
      have he' : tl.getD i' none = none := by simpa using he
      have hi' : i' < tl.length := by simpa using hi
      simp only [List.set_cons_succ, List.countP_cons]
      rw [ih i' d hi' he']
      omega

/-! ## The probing loop -/

/-- If an empty slot lies on the probe path within the fuel, probe_free stops
at the first one, every earlier slot on the path being occupied. -/
lemma probe_free_aux (descrs : List (Option frame_descr)) (k : Nat) :
    ∀ fuel h0, h0 < 2 ^ k →
      (∃ m, m < fuel ∧ descrs.getD ((h0 + m) % 2 ^ k) none = none) →
      ∃ m, m < fuel ∧
        probe_free descrs (2 ^ k - 1) h0 fuel = (h0 + m) % 2 ^ k ∧
        descrs.getD ((h0 + m) % 2 ^ k) none = none ∧
        ∀ l, l < m → (descrs.getD ((h0 + l) % 2 ^ k) none).isSome := by
  intro fuel
  induction fuel with
  | zero => intro h0 _ hex; obtain ⟨m, hm, _⟩ := hex; omega
  | succ fuel ih =>
    intro h0 hh0 hex
    have hmod : (h0 + 0) % 2 ^ k = h0 := by
      simpa using Nat.mod_eq_of_lt hh0
    cases hslot : descrs.getD h0 none with
    | none =>
      refine ⟨0, by omega, ?_, by rwa [hmod], by omega⟩
      rw [probe_free, hslot, hmod]
    | some d =>
      obtain ⟨m, hm, hempty⟩ := hex
      have hm0 : m ≠ 0 := by
        intro h0eq
        rw [h0eq, hmod, hslot] at hempty
        exact Option.noConfusion hempty
      obtain ⟨m', rfl⟩ : ∃ m', m = m' + 1 := ⟨m - 1, by omega⟩
      have hstep : (h0 + 1) &&& (2 ^ k - 1) = (h0 + 1) % 2 ^ k :=
        land_mask _ _
      have h1lt : (h0 + 1) % 2 ^ k < 2 ^ k :=
        Nat.mod_lt _ (Nat.pos_pow_of_pos k (by omega))
      have hshift : ∀ l, ((h0 + 1) % 2 ^ k + l) % 2 ^ k =
          (h0 + (l + 1)) % 2 ^ k := by
        intro l
        rw [add_mod_left_absorb]
        ring_nf
      have hex' : ∃ m2, m2 < fuel ∧
          descrs.getD (((h0 + 1) % 2 ^ k + m2) % 2 ^ k) none = none := by
        refine ⟨m', by omega, ?_⟩
        rw [hshift]
        exact hempty
      obtain ⟨m2, hm2, heq, hemp, hpre⟩ := ih ((h0 + 1) % 2 ^ k) h1lt hex'
      refine ⟨m2 + 1, by omega, ?_, ?_, ?_⟩
      · rw [probe_free]
        rw [hslot]
        rw [hstep, heq, hshift]
      · rw [hshift] at hemp; exact hemp
      · intro l hl
        cases l with
        | zero => rw [hmod, hslot]; simp
        | succ l' =>
          have := hpre l' (by omega)
          rw [hshift] at this
          simpa using this

/-- With the fuel the builder passes (the table length) and at least one
empty slot, probing stops at the first empty slot of the path. -/
lemma probe_free_spec (t : caml_frame_descrs) (k h0 : Nat)
    (hlen : t.descriptors.length = 2 ^ k) (hmask : t.mask = 2 ^ k - 1)
    (hocc : occupied t < 2 ^ k) (hh0 : h0 < 2 ^ k) :
    ∃ m, m < 2 ^ k ∧
      probe_free t.descriptors t.mask h0 t.descriptors.length =
        (h0 + m) % 2 ^ k ∧
      slotGet t ((h0 + m) % 2 ^ k) = none ∧
      ∀ l, l < m → (slotGet t ((h0 + l) % 2 ^ k)).isSome := by
  obtain ⟨j, hjlt, hjnone⟩ := exists_none_of_countP_lt t.descriptors
    (by rw [hlen]; exact hocc)
  rw [hlen] at hjlt
  obtain ⟨m1, hm1, hm1eq⟩ := exists_shift hh0 hjlt
  have hex : ∃ m, m < 2 ^ k ∧
      t.descriptors.getD ((h0 + m) % 2 ^ k) none = none :=
    ⟨m1, hm1, by rw [hm1eq]; exact hjnone⟩
  rw [hmask, hlen]
  exact probe_free_aux t.descriptors k (2 ^ k) h0 hh0 hex

/-- No two occupied slots of the table hold records with the same return
address. -/
def slots_distinct (t : caml_frame_descrs) : Prop :=
  ∀ i j di dj, slotGet t i = some di → slotGet t j = some dj → i ≠ j →
    di.retaddr ≠ dj.retaddr

/-- The invariant maintained along the fill loop of build_frame_descriptors,
stored being the records inserted so far: table geometry, exact occupancy,
slot contents drawn from stored and every stored record present, and for each
occupied slot a fully occupied probe path from the hash of its record. -/
structure BuildInv (hash : Nat → Nat) (k : Nat) (stored : List frame_descr)
    (t : caml_frame_descrs) : Prop where
  size_eq : t.descriptors.length = 2 ^ k
  mask_eq : t.mask = 2 ^ k - 1
  occ_eq : occupied t = stored.length
  mem_stored : ∀ i d, slotGet t i = some d → d ∈ stored
  stored_mem : ∀ d, d ∈ stored → ∃ i, slotGet t i = some d
  path : ∀ i d, slotGet t i = some d → ∃ m, m < 2 ^ k ∧
    i = (hash d.retaddr + m) % 2 ^ k ∧
    ∀ l, l < m → (slotGet t ((hash d.retaddr + l) % 2 ^ k)).isSome

lemma insert_descr_inv (hash : Nat → Nat) (k : Nat)
    (stored : List frame_descr) (t : caml_frame_descrs) (d : frame_descr)
    (inv : BuildInv hash k stored t) (hroom : stored.length < 2 ^ k) :
    BuildInv hash k (stored ++ [d]) (insert_descr hash t d) ∧
    (slots_distinct t → (∀ d' ∈ stored, d'.retaddr ≠ d.retaddr) →
      slots_distinct (insert_descr hash t d)) := by
  have hpos : 0 < 2 ^ k := Nat.pos_pow_of_pos k (by omega)
  have hh0eq : Hash_retaddr hash d.retaddr t.mask =
      hash d.retaddr % 2 ^ k := by
    show hash d.retaddr &&& t.mask = _
    rw [inv.mask_eq, land_mask]
  have hh0lt : Hash_retaddr hash d.retaddr t.mask < 2 ^ k := by
    rw [hh0eq]; exact Nat.mod_lt _ hpos
  obtain ⟨m, hm, heq, hemp, hpre⟩ := probe_free_spec t k _
    inv.size_eq inv.mask_eq (by rw [inv.occ_eq]; exact hroom) hh0lt
  have habsorb : ∀ l, (Hash_retaddr hash d.retaddr t.mask + l) % 2 ^ k =
      (hash d.retaddr + l) % 2 ^ k := by
    intro l; rw [hh0eq, add_mod_left_absorb]
  have hslt : (Hash_retaddr hash d.retaddr t.mask + m) % 2 ^ k < 2 ^ k :=
    Nat.mod_lt _ hpos
  have hslen : (Hash_retaddr hash d.retaddr t.mask + m) % 2 ^ k <
      t.descriptors.length := by rw [inv.size_eq]; exact hslt
  have ht' : insert_descr hash t d =
      ⟨t.descriptors.set
        ((Hash_retaddr hash d.retaddr t.mask + m) % 2 ^ k) (some d),
       t.mask⟩ := by
    simp only [insert_descr]
    rw [heq]
  have hget : ∀ i, slotGet (insert_descr hash t d) i =
      if i = (Hash_retaddr hash d.retaddr t.mask + m) % 2 ^ k then some d
      else slotGet t i := by
    intro i
    rw [ht']
    by_cases hi : i = (Hash_retaddr hash d.retaddr t.mask + m) % 2 ^ k
    · subst hi
      simp only [slotGet, if_pos rfl]
      exact getD_set_self _ _ _ hslen
    · simp only [slotGet, if_neg hi]
      exact getD_set_ne _ _ (fun h => hi h.symm)
  have hmono : ∀ j, (slotGet t j).isSome →
      (slotGet (insert_descr hash t d) j).isSome := by
    intro j hj
    rw [hget]
    by_cases h : j = (Hash_retaddr hash d.retaddr t.mask + m) % 2 ^ k <;>
      simp [h, hj]
  constructor
  · refine ⟨?_, ?_, ?_, ?_, ?_, ?_⟩
    · rw [ht']
      simpa using inv.size_eq
    · rw [ht']
      exact inv.mask_eq
    · rw [ht']
      show (t.descriptors.set _ (some d)).countP (fun o => o.isSome) = _
      rw [countP_set_some _ _ _ hslen hemp]
      have := inv.occ_eq
      simp only [occupied] at this
      rw [this]
      simp
    · intro i d' hi
      rw [hget] at hi
      by_cases h : i = (Hash_retaddr hash d.retaddr t.mask + m) % 2 ^ k
      · rw [if_pos h] at hi
        simp only [Option.some_inj] at hi
        subst hi
        simp
      · rw [if_neg h] at hi
        have := inv.mem_stored i d' hi
        simp [this]
    · intro d' hd'
      rcases List.mem_append.mp hd' with hold | hnew
      · obtain ⟨i, hi⟩ := inv.stored_mem d' hold
        refine ⟨i, ?_⟩
        rw [hget]
        have hine : i ≠ (Hash_retaddr hash d.retaddr t.mask + m) % 2 ^ k := by
          intro hcontra
          rw [hcontra] at hi
          rw [hemp] at hi
          exact Option.noConfusion hi
        rw [if_neg hine]
        exact hi
      · refine ⟨(Hash_retaddr hash d.retaddr t.mask + m) % 2 ^ k, ?_⟩
        rw [hget, if_pos rfl]
        simp only [List.mem_singleton] at hnew
        rw [hnew]
    · intro i d' hi
      rw [hget] at hi
      by_cases h : i = (Hash_retaddr hash d.retaddr t.mask + m) % 2 ^ k
      · rw [if_pos h] at hi
        simp only [Option.some_inj] at hi
        subst hi
        refine ⟨m, hm, ?_, ?_⟩
        · rw [h, habsorb]
        · intro l hl
          have := hpre l hl
          have h2 := hmono _ this
          rw [habsorb] at h2
          exact h2
      · rw [if_neg h] at hi
        obtain ⟨m', hm', hieq, hpre'⟩ := inv.path i d' hi
        refine ⟨m', hm', hieq, ?_⟩
        intro l hl
        exact hmono _ (hpre' l hl)
  · intro hdist hfresh
    intro i j di dj hi hj hij
    rw [hget] at hi hj
    by_cases h1 : i = (Hash_retaddr hash d.retaddr t.mask + m) % 2 ^ k
    · rw [if_pos h1] at hi
      simp only [Option.some_inj] at hi
      subst hi
      have h2 : j ≠ (Hash_retaddr hash d.retaddr t.mask + m) % 2 ^ k := by
        rw [← h1]; exact fun hc => hij hc.symm
      rw [if_neg h2] at hj
      have := hfresh dj (inv.mem_stored j dj hj)
      exact fun hc => this hc.symm
    · rw [if_neg h1] at hi
      by_cases h2 : j = (Hash_retaddr hash d.retaddr t.mask + m) % 2 ^ k
      · rw [if_pos h2] at hj
        simp only [Option.some_inj] at hj
        subst hj
        exact hfresh di (inv.mem_stored i di hi)
      · rw [if_neg h2] at hj
        exact hdist i j di dj hi hj hij

/-! ## The sizing loop -/

lemma tblsize_loop_pow : ∀ (fuel t target : Nat), (∃ j, t = 2 ^ j) →
    ∃ j, tblsize_loop target t fuel = 2 ^ j := by
  intro fuel
  induction fuel with
  | zero => intro t target h; exact h
  | succ fuel ih =>
    intro t target h
    rw [tblsize_loop]
    split
    · obtain ⟨j, rfl⟩ := h
      exact ih _ _ ⟨j + 1, by ring⟩
    · exact h

lemma tblsize_loop_ge_self : ∀ (fuel t target : Nat),
    t ≤ tblsize_loop target t fuel := by
  intro fuel
  induction fuel with
  | zero => intro t target; rw [tblsize_loop]
  | succ fuel ih =>
    intro t target
    rw [tblsize_loop]
    split
    · calc t ≤ 2 * t := by omega
        _ ≤ _ := ih _ _
    · exact Nat.le_refl t

lemma tblsize_loop_ge_target : ∀ (fuel t target : Nat), 0 < t →
    target ≤ t * 2 ^ fuel → target ≤ tblsize_loop target t fuel := by
  intro fuel
  induction fuel with
  | zero =>
    intro t target _ h
    rw [tblsize_loop]
    simpa using h
  | succ fuel ih =>
    intro t target ht h
    rw [tblsize_loop]
    split
    · refine ih (2 * t) target (by omega) ?_
      have heq : 2 * t * 2 ^ fuel = t * 2 ^ (fuel + 1) := by ring
      rw [heq]
      exact h
    · omega

lemma tblsize_loop_min : ∀ (fuel t target T : Nat), t ≤ T → target ≤ T →
    (∃ j, T = t * 2 ^ j) → tblsize_loop target t fuel ≤ T := by
  intro fuel
  induction fuel with
  | zero => intro t target T h _ _; rw [tblsize_loop]; exact h
  | succ fuel ih =>
    intro t target T ht htarget hj
    rw [tblsize_loop]
    split
    · rename_i hlt
      obtain ⟨j, rfl⟩ := hj
      have hj1 : j ≠ 0 := by
        intro h0
        rw [h0] at htarget
        simp at htarget
        omega
      obtain ⟨j', rfl⟩ : ∃ j', j = j' + 1 := ⟨j - 1, by omega⟩
      refine ih (2 * t) target (t * 2 ^ (j' + 1)) ?_ htarget ⟨j', by ring⟩
      rw [pow_succ]
      have : 1 ≤ 2 ^ j' := Nat.one_le_two_pow
      calc 2 * t = t * 2 * 1 := by ring
        _ ≤ t * 2 * 2 ^ j' := by
          exact Nat.mul_le_mul_left _ this
        _ = t * 2 ^ (j' + 1) := by ring
    · exact ht

/-- The table size computed by build_frame_descriptors for n descriptors. -/
def tblsize_of (n : Nat) : Nat := tblsize_loop (2 * n) 4 (2 * n)

lemma tblsize_of_spec (n : Nat) :
    (∃ k, tblsize_of n = 2 ^ k) ∧ 4 ≤ tblsize_of n ∧
      2 * n ≤ tblsize_of n ∧
      ∀ T, (∃ j, T = 2 ^ j) → 4 ≤ T → 2 * n ≤ T → tblsize_of n ≤ T := by
  refine ⟨tblsize_loop_pow _ _ _ ⟨2, rfl⟩, tblsize_loop_ge_self _ _ _, ?_, ?_⟩
  · refine tblsize_loop_ge_target _ _ _ (by omega) ?_
    have h1 : 2 * n < 2 ^ (2 * n) := Nat.lt_two_pow (2 * n)
    have h4 : 2 ^ (2 * n) ≤ 4 * 2 ^ (2 * n) := by omega
    omega
  · intro T hT h4 h2n
    obtain ⟨j, rfl⟩ := hT
    have hj2 : 2 ≤ j := by
      by_contra hc
      interval_cases j <;> simp_all
    refine tblsize_loop_min _ _ _ _ h4 h2n ⟨j - 2, ?_⟩
    have : 4 * 2 ^ (j - 2) = 2 ^ 2 * 2 ^ (j - 2) := by norm_num
    rw [this, ← pow_add]
    congr 1
    omega

/-! ## The fill loops -/

lemma foldl_insert_inv (hash : Nat → Nat) (k : Nat) :
    ∀ (tbl stored : List frame_descr) (t : caml_frame_descrs),
      BuildInv hash k stored t → stored.length + tbl.length ≤ 2 ^ k →
      BuildInv hash k (stored ++ tbl) (tbl.foldl (insert_descr hash) t) ∧
      (slots_distinct t →
        List.Pairwise (fun a b => a.retaddr ≠ b.retaddr) (stored ++ tbl) →
        slots_distinct (tbl.foldl (insert_descr hash) t)) := by
  intro tbl
  induction tbl with
  | nil =>
    intro stored t inv _
    simpa using ⟨inv, fun h _ => h⟩
  | cons d rest ih =>
    intro stored t inv hroom
    simp only [List.length_cons] at hroom
    have hroom1 : stored.length < 2 ^ k := by omega
    obtain ⟨inv', hdist'⟩ := insert_descr_inv hash k stored t d inv hroom1
    have hroom2 : (stored ++ [d]).length + rest.length ≤ 2 ^ k := by
      simp only [List.length_append, List.length_singleton]
      omega
    obtain ⟨invf, hdistf⟩ :=
      ih (stored ++ [d]) (insert_descr hash t d) inv' hroom2
    have hassoc : (stored ++ [d]) ++ rest = stored ++ d :: rest := by simp
    rw [hassoc] at invf hdistf
    refine ⟨invf, ?_⟩
    intro hdist hpw
    refine hdistf (hdist' hdist ?_) hpw
    intro d' hd'
    rw [List.pairwise_append] at hpw
    exact hpw.2.2 d' hd' d (by simp)

lemma foldl_tables_inv (hash : Nat → Nat) (k : Nat) :
    ∀ (fts : List (List frame_descr)) (stored : List frame_descr)
      (t : caml_frame_descrs),
      BuildInv hash k stored t →
      stored.length + fts.flatten.length ≤ 2 ^ k →
      BuildInv hash k (stored ++ fts.flatten)
        (fts.foldl (fun t tbl => tbl.foldl (insert_descr hash) t) t) ∧
      (slots_distinct t →
        List.Pairwise (fun a b => a.retaddr ≠ b.retaddr)
          (stored ++ fts.flatten) →
        slots_distinct
          (fts.foldl (fun t tbl => tbl.foldl (insert_descr hash) t) t)) := by
  intro fts
  induction fts with
  | nil =>
    intro stored t inv _
    simpa using ⟨inv, fun h _ => h⟩
  | cons tbl rest ih =>
    intro stored t inv hroom
    simp only [List.flatten_cons, List.length_append] at hroom
    obtain ⟨inv', hdist'⟩ := foldl_insert_inv hash k tbl stored t inv
      (by omega)
    have hroom2 : (stored ++ tbl).length + rest.flatten.length ≤ 2 ^ k := by
      simp only [List.length_append]
      omega
    obtain ⟨invf, hdistf⟩ := ih (stored ++ tbl)
      (tbl.foldl (insert_descr hash) t) inv' hroom2
    have hassoc : (stored ++ tbl) ++ rest.flatten =
        stored ++ (tbl :: rest).flatten := by simp
    rw [hassoc] at invf hdistf
    refine ⟨invf, ?_⟩
    intro hdist hpw
    refine hdistf (hdist' hdist ?_) hpw
    have hpw' : List.Pairwise (fun a b => a.retaddr ≠ b.retaddr)
        (stored ++ tbl) := by
      rw [← hassoc] at hpw
      rw [List.pairwise_append] at hpw
      exact hpw.1
    exact hpw'

/-- The empty table the builder starts from satisfies the invariant. -/
lemma init_table_inv (hash : Nat → Nat) (k : Nat) :
    BuildInv hash k []
      ⟨List.replicate (2 ^ k) none, 2 ^ k - 1⟩ ∧
    slots_distinct ⟨List.replicate (2 ^ k) (none : Option frame_descr),
      2 ^ k - 1⟩ := by
  have hget : ∀ i, slotGet
      ⟨List.replicate (2 ^ k) (none : Option frame_descr), 2 ^ k - 1⟩ i =
      none := by
    intro i
    show (List.replicate (2 ^ k) (none : Option frame_descr)).getD i none =
      none
    rw [List.getD_eq_getElem?_getD, List.getElem?_replicate]
    split <;> simp
  refine ⟨⟨by simp, rfl, ?_, ?_, by simp, ?_⟩, ?_⟩
  · show (List.replicate (2 ^ k) (none : Option frame_descr)).countP
      (fun o => o.isSome) = 0
    rw [List.countP_eq_zero]
    intro a ha
    rw [List.eq_of_mem_replicate ha]
    simp
  · intro i d hi
    rw [hget i] at hi
    exact Option.noConfusion hi
  · intro i d hi
    rw [hget i] at hi
    exact Option.noConfusion hi
  · intro i j di dj hi
    rw [hget i] at hi
    exact Option.noConfusion hi

/-- The invariant of the completed build: build_frame_descriptors satisfies
BuildInv for all the records of the chain, with a power-of-two table at
least twice the record count and at least 4 slots, and with slot-wise
distinct return addresses when the registered return addresses are unique. -/
lemma build_inv (hash : Nat → Nat) (fts : List (List frame_descr)) :
    ∃ k, build_frame_descriptors hash fts =
        (fts.foldl (fun t tbl => tbl.foldl (insert_descr hash) t)
          ⟨List.replicate (2 ^ k) none, 2 ^ k - 1⟩) ∧
      tblsize_of ((fts.map List.length).sum) = 2 ^ k ∧
      BuildInv hash k (allRecords fts) (build_frame_descriptors hash fts) ∧
      2 * (allRecords fts).length ≤ 2 ^ k ∧ 4 ≤ 2 ^ k ∧
      (List.Pairwise (fun a b => a.retaddr ≠ b.retaddr) (allRecords fts) →
        slots_distinct (build_frame_descriptors hash fts)) := by
  obtain ⟨⟨k, hk⟩, h4, h2n, _⟩ := tblsize_of_spec ((fts.map List.length).sum)
  have hsum : (fts.map List.length).sum = fts.flatten.length :=
    (List.length_flatten fts).symm
  have hbuild : build_frame_descriptors hash fts =
      fts.foldl (fun t tbl => tbl.foldl (insert_descr hash) t)
        ⟨List.replicate (2 ^ k) none, 2 ^ k - 1⟩ := by
    show fts.foldl _ (⟨List.replicate (tblsize_of ((fts.map List.length).sum))
      none, tblsize_of ((fts.map List.length).sum) - 1⟩ : caml_frame_descrs) =
      _
    rw [hk]
  obtain ⟨inv0, hdist0⟩ := init_table_inv hash k
  rw [hk] at h2n h4
  obtain ⟨invf, hdistf⟩ := foldl_tables_inv hash k fts [] _ inv0
    (by simp only [List.length_nil]; rw [← hsum]; omega)
  refine ⟨k, hbuild, hk, ?_, ?_, h4, ?_⟩
  · rw [hbuild]
    have h := invf
    rw [List.nil_append] at h
    exact h
  · rw [hsum] at h2n
    exact h2n
  · intro hpw
    rw [hbuild]
    refine hdistf hdist0 ?_
    rw [List.nil_append]
    exact hpw

/-! ## The lookup loop -/

/-- If the slot at distance m on the probe path holds a record with return
address pc and every earlier slot holds a record with a different return
address, the lookup loop returns that record. -/
lemma find_loop_match (descrs : List (Option frame_descr)) (k pc : Nat)
    (d : frame_descr) :
    ∀ fuel h0 m, h0 < 2 ^ k → m < fuel →
      descrs.getD ((h0 + m) % 2 ^ k) none = some d → d.retaddr = pc →
      (∀ l, l < m → ∃ d', descrs.getD ((h0 + l) % 2 ^ k) none = some d' ∧
        d'.retaddr ≠ pc) →
      find_loop descrs (2 ^ k - 1) pc h0 fuel = some (some d) := by
  intro fuel
  induction fuel with
  | zero => intro h0 m _ hm; omega
  | succ fuel ih =>
    intro h0 m hh0 hm hd hpc hpre
    have hmod : (h0 + 0) % 2 ^ k = h0 := by
      simpa using Nat.mod_eq_of_lt hh0
    cases m with
    | zero =>
      rw [hmod] at hd
      rw [find_loop, hd]
      simp [hpc]
    | succ m' =>
      obtain ⟨d0, hd0, hd0ne⟩ := hpre 0 (by omega)
      rw [hmod] at hd0
      have hd0ne' : ¬ d0.retaddr = pc := hd0ne
      have h1lt : (h0 + 1) % 2 ^ k < 2 ^ k :=
        Nat.mod_lt _ (Nat.pos_pow_of_pos k (by omega))
      have hshift : ∀ l, ((h0 + 1) % 2 ^ k + l) % 2 ^ k =
          (h0 + (l + 1)) % 2 ^ k := by
        intro l
        rw [add_mod_left_absorb]
        ring_nf
      rw [find_loop, hd0]
      simp only [hd0ne', if_false, land_mask]
      refine ih ((h0 + 1) % 2 ^ k) m' h1lt (by omega) ?_ hpc ?_
      · rw [hshift]
        exact hd
      · intro l hl
        obtain ⟨d', hd', hne⟩ := hpre (l + 1) (by omega)
        exact ⟨d', by rw [hshift]; exact hd', hne⟩

/-- If every occupied slot holds a record with a return address different
from pc and an empty slot lies on the path within the fuel, the lookup loop
reports a miss (NULL). -/
lemma find_loop_miss (descrs : List (Option frame_descr)) (k pc : Nat)
    (hall : ∀ i d, descrs.getD i none = some d → d.retaddr ≠ pc) :
    ∀ fuel h0, h0 < 2 ^ k →
      (∃ m, m < fuel ∧ descrs.getD ((h0 + m) % 2 ^ k) none = none) →
      find_loop descrs (2 ^ k - 1) pc h0 fuel = some none := by
  intro fuel
  induction fuel with
  | zero => intro h0 _ hex; obtain ⟨m, hm, _⟩ := hex; omega
  | succ fuel ih =>
    intro h0 hh0 hex
    have hmod : (h0 + 0) % 2 ^ k = h0 := by
      simpa using Nat.mod_eq_of_lt hh0
    cases hslot : descrs.getD h0 none with
    | none => rw [find_loop, hslot]
    | some d =>
      obtain ⟨m, hm, hempty⟩ := hex
      have hm0 : m ≠ 0 := by
        intro h0eq
        rw [h0eq, hmod, hslot] at hempty
        exact Option.noConfusion hempty
      have hne : ¬ d.retaddr = pc := hall h0 d hslot
      have h1lt : (h0 + 1) % 2 ^ k < 2 ^ k :=
        Nat.mod_lt _ (Nat.pos_pow_of_pos k (by omega))
      have hshift : ∀ l, ((h0 + 1) % 2 ^ k + l) % 2 ^ k =
          (h0 + (l + 1)) % 2 ^ k := by
        intro l
        rw [add_mod_left_absorb]
        ring_nf
      rw [find_loop, hslot]
      simp only [hne, if_false, land_mask]
      refine ih ((h0 + 1) % 2 ^ k) h1lt ?_
      obtain ⟨m', rfl⟩ : ∃ m', m = m' + 1 := ⟨m - 1, by omega⟩
      refine ⟨m', by omega, ?_⟩
      rw [hshift]
      exact hempty

/-- With an empty slot on the path within the fuel, the lookup loop always
returns (its fuel does not run out), whatever pc is. -/
lemma find_loop_total (descrs : List (Option frame_descr)) (k pc : Nat) :
    ∀ fuel h0, h0 < 2 ^ k →
      (∃ m, m < fuel ∧ descrs.getD ((h0 + m) % 2 ^ k) none = none) →
      (find_loop descrs (2 ^ k - 1) pc h0 fuel).isSome := by
  intro fuel
  induction fuel with
  | zero => intro h0 _ hex; obtain ⟨m, hm, _⟩ := hex; omega
  | succ fuel ih =>
    intro h0 hh0 hex
    have hmod : (h0 + 0) % 2 ^ k = h0 := by
      simpa using Nat.mod_eq_of_lt hh0
    cases hslot : descrs.getD h0 none with
    | none => rw [find_loop, hslot]; rfl
    | some d =>
      by_cases hpc : d.retaddr = pc
      · rw [find_loop, hslot]
        simp [hpc]
      · obtain ⟨m, hm, hempty⟩ := hex
        have hm0 : m ≠ 0 := by
          intro h0eq
          rw [h0eq, hmod, hslot] at hempty
          exact Option.noConfusion hempty
        have h1lt : (h0 + 1) % 2 ^ k < 2 ^ k :=
          Nat.mod_lt _ (Nat.pos_pow_of_pos k (by omega))
        have hshift : ∀ l, ((h0 + 1) % 2 ^ k + l) % 2 ^ k =
            (h0 + (l + 1)) % 2 ^ k := by
          intro l
          rw [add_mod_left_absorb]
          ring_nf
        rw [find_loop, hslot]
        simp only [hpc, if_false, land_mask]
        refine ih ((h0 + 1) % 2 ^ k) h1lt ?_
        obtain ⟨m', rfl⟩ : ∃ m', m = m' + 1 := ⟨m - 1, by omega⟩
        refine ⟨m', by omega, ?_⟩
        rw [hshift]
        exact hempty

/-! ## Lookup correctness over a built table -/

/-- Everything the lookup theorems need about a built table: geometry,
exact occupancy, termination of every lookup, hit and miss behaviour, and
slot contents drawn from the registered records. -/
lemma build_core (hash : Nat → Nat) (fts : List (List frame_descr)) :
    ∃ k,
      (build_frame_descriptors hash fts).descriptors.length = 2 ^ k ∧
      (build_frame_descriptors hash fts).mask = 2 ^ k - 1 ∧
      occupied (build_frame_descriptors hash fts) =
        (allRecords fts).length ∧
      2 * (allRecords fts).length ≤ 2 ^ k ∧ 4 ≤ 2 ^ k ∧
      tblsize_of ((fts.map List.length).sum) = 2 ^ k ∧
      (∀ pc, (caml_find_frame_descr hash
        (build_frame_descriptors hash fts) pc).isSome) ∧
      (∀ pc, pc ∉ (allRecords fts).map frame_descr.retaddr →
        caml_find_frame_descr hash (build_frame_descriptors hash fts) pc =
          some none) ∧
      (∀ i d, slotGet (build_frame_descriptors hash fts) i = some d →
        d ∈ allRecords fts) ∧
      (List.Pairwise (fun a b => a.retaddr ≠ b.retaddr) (allRecords fts) →
        ∀ d ∈ allRecords fts,
          caml_find_frame_descr hash (build_frame_descriptors hash fts)
            d.retaddr = some (some d)) := by
  obtain ⟨k, hfold, hk, inv, h2n, h4, hdist⟩ := build_inv hash fts
  have hpos : 0 < 2 ^ k := by omega
  have hocclt : occupied (build_frame_descriptors hash fts) < 2 ^ k := by
    rw [inv.occ_eq]
    omega
  have hempty : ∃ j, j < 2 ^ k ∧
      slotGet (build_frame_descriptors hash fts) j = none := by
    obtain ⟨j, hj, hjn⟩ := exists_none_of_countP_lt
      (build_frame_descriptors hash fts).descriptors
      (by rw [inv.size_eq]; exact hocclt)
    rw [inv.size_eq] at hj
    exact ⟨j, hj, hjn⟩
  have hpath : ∀ h0, h0 < 2 ^ k → ∃ m, m < 2 ^ k ∧
      (build_frame_descriptors hash fts).descriptors.getD
        ((h0 + m) % 2 ^ k) none = none := by
    intro h0 hh0
    obtain ⟨j, hj, hjn⟩ := hempty
    obtain ⟨m, hm, hmeq⟩ := exists_shift hh0 hj
    exact ⟨m, hm, by rw [hmeq]; exact hjn⟩
  have hfind : ∀ pc,
      caml_find_frame_descr hash (build_frame_descriptors hash fts) pc =
        find_loop (build_frame_descriptors hash fts).descriptors
          (2 ^ k - 1) pc (hash pc % 2 ^ k) (2 ^ k) := by
    intro pc
    unfold caml_find_frame_descr Hash_retaddr
    rw [inv.mask_eq, inv.size_eq, land_mask]
  have hh0lt : ∀ pc, hash pc % 2 ^ k < 2 ^ k := fun pc => Nat.mod_lt _ hpos
  refine ⟨k, inv.size_eq, inv.mask_eq, inv.occ_eq, h2n, h4, hk,
    ?_, ?_, inv.mem_stored, ?_⟩
  · intro pc
    rw [hfind]
    exact find_loop_total _ k pc (2 ^ k) _ (hh0lt pc) (hpath _ (hh0lt pc))
  · intro pc hpc
    rw [hfind]
    refine find_loop_miss _ k pc ?_ (2 ^ k) _ (hh0lt pc) (hpath _ (hh0lt pc))
    intro i d hd
    intro hcontra
    exact hpc (by
      rw [← hcontra]
      exact List.mem_map_of_mem frame_descr.retaddr (inv.mem_stored i d hd))
  · intro hpw d hd
    have hsd : slots_distinct (build_frame_descriptors hash fts) := hdist hpw
    obtain ⟨i, hi⟩ := inv.stored_mem d hd
    obtain ⟨m, hm, hieq, hpre⟩ := inv.path i d hi
    rw [hfind]
    have habs : ∀ l, (hash d.retaddr % 2 ^ k + l) % 2 ^ k =
        (hash d.retaddr + l) % 2 ^ k := fun l => add_mod_left_absorb _ _ _
    refine find_loop_match _ k d.retaddr d (2 ^ k) _ m (hh0lt d.retaddr)
      hm ?_ rfl ?_
    · rw [habs, ← hieq]
      exact hi
    · intro l hl
      have hocc := hpre l hl
      obtain ⟨d', hd'⟩ := Option.isSome_iff_exists.mp hocc
      refine ⟨d', by rw [habs]; exact hd', ?_⟩
      have hne : (hash d.retaddr + l) % 2 ^ k ≠ i := by
        rw [hieq]
        intro hcontra
        exact absurd (path_mod_inj (hash d.retaddr) (by omega) hm hcontra)
          (by omega)
      exact hsd _ i d' d hd' hi hne

/-! ## Version chain lemmas -/

@[simp] lemma fv_table (t : caml_frame_descrs) (c : Nat)
    (p : Option frametable_version) : (frametable_version.mk t c p).table = t :=
  rfl

@[simp] lemma fv_marker (t : caml_frame_descrs) (c : Nat)
    (p : Option frametable_version) :
    (frametable_version.mk t c p).free_prev_after_cycle = c := rfl

@[simp] lemma fv_prev (t : caml_frame_descrs) (c : Nat)
    (p : Option frametable_version) :
    (frametable_version.mk t c p).prev = p := rfl

/-- Once the marker is No_need_to_free, no uintnat cycle count can make the
accessor free anything: the state is returned unchanged. -/
lemma get_noop_of_marker_max (c : Nat) (s : GlobalState)
    (ft : frametable_version) (hcur : s.current = some ft)
    (hmk : ft.free_prev_after_cycle = No_need_to_free)
    (hc : c ≤ No_need_to_free) :
    (caml_get_frame_descrs c s).2 = s := by
  have hnlt : ¬ ft.free_prev_after_cycle < c := by rw [hmk]; omega
  unfold caml_get_frame_descrs
  rw [hcur]
  simp [hnlt]

/-- Characterisation of a run of registrations: the current version always
carries the table freshly built from the full chain, and the chain is the
reversed list of registered tables on top of the initial chain. -/
lemma foldl_register_char (hash : Nat → Nat) :
    ∀ (regs : List (Nat × List frame_descr)) (s : GlobalState),
      (∃ marker prev, s.current = some (.mk
        (build_frame_descriptors hash s.frametables) marker prev)) →
      (∃ marker prev,
        (regs.foldl (fun s cr => caml_register_frametable hash cr.1 cr.2 s)
            s).current =
          some (.mk (build_frame_descriptors hash
            ((regs.foldl (fun s cr => caml_register_frametable hash cr.1 cr.2 s)
              s).frametables)) marker prev)) ∧
      (regs.foldl (fun s cr => caml_register_frametable hash cr.1 cr.2 s)
          s).frametables = (regs.map Prod.snd).reverse ++ s.frametables := by
  intro regs
  induction regs with
  | nil => intro s h; simpa using h
  | cons cr rest ih =>
    intro s h
    simp only [List.foldl_cons]
    have hstep : (caml_register_frametable hash cr.1 cr.2 s).current =
        some (.mk (build_frame_descriptors hash
          (caml_register_frametable hash cr.1 cr.2 s).frametables)
          cr.1 s.current) := rfl
    obtain ⟨hA, hB⟩ := ih (caml_register_frametable hash cr.1 cr.2 s)
      ⟨cr.1, s.current, hstep⟩
    refine ⟨hA, ?_⟩
    rw [hB]
    show _ = ((cr :: rest).map Prod.snd).reverse ++ s.frametables
    simp [caml_register_frametable]

/-! ## Allocation-failure model -/

/-- caml_register_frametable with an explicit allocation oracle: the three
allocations of the C code (the chain link from cons, the descriptor array
inside build_frame_descriptors, and the version node) each either succeed or
abort the process. caml_stat_alloc never returns on failure, so an abort is
modelled as an error carrying the global state at the abort point; the store
to current_frametable is the last step and only happens on full success. -/
def caml_register_frametable_alloc (hash : Nat → Nat) (cycles : Nat)
    (table : List frame_descr) (s : GlobalState)
    (consOk buildOk nodeOk : Bool) : Except GlobalState GlobalState :=
  if consOk = false then .error s
  else
    if buildOk = false then .error ⟨table :: s.frametables, s.current⟩
    else if nodeOk = false then .error ⟨table :: s.frametables, s.current⟩
    else .ok (caml_register_frametable hash cycles table s)

/-- caml_init_frame_descriptors with an allocation oracle: consFail, when
below the boot list length, is the index of the cons allocation that fails
during the chain-building loop; then the index array and version node
allocations. The current-version store is last. -/
def caml_init_frame_descriptors_alloc (hash : Nat → Nat)
    (boot : List (List frame_descr)) (consFail : Nat)
    (buildOk nodeOk : Bool) : Except GlobalState GlobalState :=
  if consFail < boot.length then
    .error ⟨(boot.take consFail).foldl (fun acc t => t :: acc) [], none⟩
  else
    if buildOk = false then
      .error ⟨boot.foldl (fun acc t => t :: acc) [], none⟩
    else if nodeOk = false then
      .error ⟨boot.foldl (fun acc t => t :: acc) [], none⟩
    else .ok (caml_init_frame_descriptors hash boot)

/-! ## Claims -/

/-- Claim C1: under the generator precondition that all registered return
addresses are unique, looking up the return address of any record of the
registration chain in the index built by build_frame_descriptors returns
exactly that record, whatever tables were registered before or after it; a
lookup of an address never registered returns NULL; and no slot of the table
holds anything but a registered record. -/
theorem c1_lookup_returns_exact_record (hash : Nat → Nat)
    (fts : List (List frame_descr))
    (huniq : ((allRecords fts).map frame_descr.retaddr).Nodup) :
    (∀ d ∈ allRecords fts,
      caml_find_frame_descr hash (build_frame_descriptors hash fts)
        d.retaddr = some (some d)) ∧
    (∀ pc, pc ∉ (allRecords fts).map frame_descr.retaddr →
      caml_find_frame_descr hash (build_frame_descriptors hash fts) pc =
        some none) ∧
    (∀ i d, slotGet (build_frame_descriptors hash fts) i = some d →
      d ∈ allRecords fts) := by
  obtain ⟨k, _, _, _, _, _, _, _, hmiss, hmem, hhit⟩ := build_core hash fts
  have hpw : List.Pairwise (fun a b => a.retaddr ≠ b.retaddr)
      (allRecords fts) := List.pairwise_map.mp huniq
  exact ⟨hhit hpw, hmiss, hmem⟩

/-- Witness for C1 at a concrete chain of two one-record tables. -/
theorem c1_witness :
    caml_find_frame_descr (fun a => a)
      (build_frame_descriptors (fun a => a)
        [[⟨4096, 0, 0⟩], [⟨4097, 0, 0⟩]]) 4097 =
      some (some ⟨4097, 0, 0⟩) :=
  (c1_lookup_returns_exact_record (fun a => a)
    [[⟨4096, 0, 0⟩], [⟨4097, 0, 0⟩]] (by decide)).1
    ⟨4097, 0, 0⟩ (by decide)

/-- Claim C2: on a well-formed encoded record, next_frame_descr advances
exactly as documented for every combination of the flag bits: past the
header and live offsets, past the count byte and num_allocs
allocation-length bytes when bit 1 is set, past the 4-byte-aligned debug
words when bit 0 is set and the size word is not the all-ones sentinel
(num_allocs words with an allocation table, one word without), finally
aligning to pointer width. -/
theorem c2_next_frame_descr_layout (M : Mem) (a : Nat) (r : FrameRecord)
    (henc : encodesAt M a r) (hwf : FrameRecordWF r) :
    next_frame_descr M a = next_record_addr r a := by
  obtain ⟨h1, h2, h3⟩ := henc
  simp only [next_frame_descr, next_record_addr, h1, h2]
  by_cases hb2 : r.frame_size &&& 2 ≠ 0
  · rw [h3 hb2]
    simp [hb2]
    ring_nf
  · simp only [hb2, if_false, ite_false, if_neg]

/-- Witness for C2: a record with both flag bits set, three live offsets and
two allocation lengths, encoded at address 16. -/
theorem c2_witness :
    encodesAt
      ⟨fun x => if x = 34 then 2 else 0,
       fun x => if x = 24 then 3 else if x = 26 then 3 else 0⟩
      16 ⟨3, [5, 6, 7], [1, 2]⟩ ∧
    FrameRecordWF ⟨3, [5, 6, 7], [1, 2]⟩ ∧
    next_frame_descr
      ⟨fun x => if x = 34 then 2 else 0,
       fun x => if x = 24 then 3 else if x = 26 then 3 else 0⟩ 16 =
      next_record_addr ⟨3, [5, 6, 7], [1, 2]⟩ 16 :=
  ⟨⟨by decide, by decide, fun _ => by decide⟩,
   ⟨by decide, by decide, by decide, fun h => by simp at h⟩,
   c2_next_frame_descr_layout _ 16 _
     ⟨by decide, by decide, fun _ => by decide⟩
     ⟨by decide, by decide, by decide, fun h => by simp at h⟩⟩

/-- Claim C5: the table size chosen by build_frame_descriptors is the
smallest power of two at least 2 times the descriptor count, with minimum 4
(so, 8 for a 3-record chain), and after any build the number of occupied
slots is at most half the table size. -/
theorem c5_tblsize_and_load_factor (hash : Nat → Nat)
    (fts : List (List frame_descr)) :
    ∃ tblsize,
      (build_frame_descriptors hash fts).descriptors.length = tblsize ∧
      (build_frame_descriptors hash fts).mask = tblsize - 1 ∧
      (∃ k, tblsize = 2 ^ k) ∧ 4 ≤ tblsize ∧
      2 * (fts.map List.length).sum ≤ tblsize ∧
      (∀ T, (∃ j, T = 2 ^ j) → 4 ≤ T →
        2 * (fts.map List.length).sum ≤ T → tblsize ≤ T) ∧
      occupied (build_frame_descriptors hash fts) ≤ tblsize / 2 ∧
      ((fts.map List.length).sum = 3 → tblsize = 8) := by
  obtain ⟨k, hlen, hmask, hocc, h2n, h4, hk, _⟩ := build_core hash fts
  obtain ⟨_, _, _, hmin⟩ := tblsize_of_spec ((fts.map List.length).sum)
  have hsum : (fts.map List.length).sum = (allRecords fts).length :=
    (List.length_flatten fts).symm
  refine ⟨2 ^ k, hlen, hmask, ⟨k, rfl⟩, h4, ?_, ?_, ?_, ?_⟩
  · rw [hsum]
    exact h2n
  · intro T hT h4T h2T
    rw [← hk]
    exact hmin T hT h4T h2T
  · rw [hocc, ← hsum]
    omega
  · intro h3
    rw [← hk, h3]
    rfl

/-- Witness for C5: for one table of three records the size is 8, the mask 7
and three slots are occupied, so occupancy is at most half the size. -/
theorem c5_witness :
    (build_frame_descriptors (fun a => a)
      [[⟨4096, 0, 0⟩, ⟨4097, 0, 0⟩, ⟨4098, 0, 0⟩]]).descriptors.length = 8 := by
  obtain ⟨T, hlen, _, _, _, _, _, _, h3⟩ := c5_tblsize_and_load_factor
    (fun a => a) [[⟨4096, 0, 0⟩, ⟨4097, 0, 0⟩, ⟨4098, 0, 0⟩]]
  rw [hlen, h3 (by decide)]

/-- Claim C6: for every built table and every program counter, registered or
not, the lookup loop terminates within the fuel of the embedding: an empty
slot always exists because occupancy is strictly below the table length by
construction, and for a never-registered address the loop returns NULL (a
miss, not a failure). -/
theorem c6_lookup_always_terminates (hash : Nat → Nat)
    (fts : List (List frame_descr)) (pc : Nat) :
    (caml_find_frame_descr hash
      (build_frame_descriptors hash fts) pc).isSome ∧
    occupied (build_frame_descriptors hash fts) <
      (build_frame_descriptors hash fts).descriptors.length ∧
    (pc ∉ (allRecords fts).map frame_descr.retaddr →
      caml_find_frame_descr hash (build_frame_descriptors hash fts) pc =
        some none) := by
  obtain ⟨k, hlen, _, hocc, h2n, h4, _, htot, hmiss, _⟩ := build_core hash fts
  refine ⟨htot pc, ?_, hmiss pc⟩
  rw [hlen, hocc]
  omega

/-- Witness for C6 at a concrete table and a never-registered address. -/
theorem c6_witness :
    caml_find_frame_descr (fun a => a)
      (build_frame_descriptors (fun a => a) [[⟨4096, 0, 0⟩]]) 9999 =
      some none :=
  (c6_lookup_always_terminates (fun a => a) [[⟨4096, 0, 0⟩]] 9999).2.2
    (by decide)

/-- Claim C3: the accessor frees a predecessor only when the observed
completed-major-cycle count strictly exceeds the free_prev_after_cycle
marker of the current version; while the marker has not been strictly
exceeded, the state (and so every predecessor) is left untouched. -/
theorem c3_free_only_after_epoch (c : Nat) (s : GlobalState)
    (ft : frametable_version) (hcur : s.current = some ft) :
    ((caml_get_frame_descrs c s).2 ≠ s → ft.free_prev_after_cycle < c) ∧
    (¬ ft.free_prev_after_cycle < c → (caml_get_frame_descrs c s).2 = s) := by
  have hstay : ¬ ft.free_prev_after_cycle < c →
      (caml_get_frame_descrs c s).2 = s := by
    intro hlt
    unfold caml_get_frame_descrs
    rw [hcur]
    simp [hlt]
  exact ⟨fun hne => by by_contra hlt; exact hne (hstay hlt), hstay⟩

/-- Witness for C3: with marker 5 and observed count 3, the accessor frees
nothing and returns the state unchanged. -/
theorem c3_witness :
    (caml_get_frame_descrs 3
      ⟨[], some (.mk ⟨[], 0⟩ 5 (some (.mk ⟨[], 0⟩ 2 none)))⟩).2 =
      ⟨[], some (.mk ⟨[], 0⟩ 5 (some (.mk ⟨[], 0⟩ 2 none)))⟩ :=
  (c3_free_only_after_epoch 3 _ _ rfl).2 (by decide)

/-- Claim C7: registration builds a fresh index for the new version and
leaves every previously published index unchanged: the chain of published
tables after a registration is the freshly built table consed onto the old
chain, every old table still present, slot for slot. -/
theorem c7_register_preserves_published_tables (hash : Nat → Nat)
    (cycles : Nat) (tbl : List frame_descr) (s : GlobalState) :
    chainTables (caml_register_frametable hash cycles tbl s).current =
      build_frame_descriptors hash (tbl :: s.frametables) ::
        chainTables s.current ∧
    ∀ t ∈ chainTables s.current,
      t ∈ chainTables (caml_register_frametable hash cycles tbl s).current := by
  have h : chainTables (caml_register_frametable hash cycles tbl s).current =
      build_frame_descriptors hash (tbl :: s.frametables) ::
        chainTables s.current := by
    simp [caml_register_frametable, chainTables]
  exact ⟨h, fun t ht => by rw [h]; exact List.mem_cons_of_mem _ ht⟩

/-- Witness for C7: the single table already published survives a
registration. -/
theorem c7_witness :
    (⟨[], 0⟩ : caml_frame_descrs) ∈
      chainTables (caml_register_frametable (fun a => a) 0 []
        ⟨[], some (.mk ⟨[], 0⟩ No_need_to_free none)⟩).current :=
  (c7_register_preserves_published_tables (fun a => a) 0 []
    ⟨[], some (.mk ⟨[], 0⟩ No_need_to_free none)⟩).2 ⟨[], 0⟩ (by simp [chainTables])

/-- Claim C8: if any allocation fails during registration or initialisation,
the abort happens before the current-version pointer is stored, so the
previously current version stays published unchanged; when every allocation
succeeds, the fully built state is published. -/
theorem c8_alloc_failure_publishes_nothing (hash : Nat → Nat) :
    (∀ cycles table s consOk buildOk nodeOk st,
      caml_register_frametable_alloc hash cycles table s consOk buildOk
        nodeOk = .error st → st.current = s.current) ∧
    (∀ cycles table s consOk buildOk nodeOk s2,
      caml_register_frametable_alloc hash cycles table s consOk buildOk
        nodeOk = .ok s2 → s2 = caml_register_frametable hash cycles table s) ∧
    (∀ boot consFail buildOk nodeOk st,
      caml_init_frame_descriptors_alloc hash boot consFail buildOk nodeOk =
        .error st → st.current = none) ∧
    (∀ boot consFail buildOk nodeOk s2,
      caml_init_frame_descriptors_alloc hash boot consFail buildOk nodeOk =
        .ok s2 → s2 = caml_init_frame_descriptors hash boot) := by
  refine ⟨?_, ?_, ?_, ?_⟩
  · intro cycles table s consOk buildOk nodeOk st h
    unfold caml_register_frametable_alloc at h
    split at h
    · injection h with h2
      rw [← h2]
    · split at h
      · injection h with h2
        rw [← h2]
      · split at h
        · injection h with h2
          rw [← h2]
        · exact Except.noConfusion h
  · intro cycles table s consOk buildOk nodeOk s2 h
    unfold caml_register_frametable_alloc at h
    split at h
    · exact Except.noConfusion h
    · split at h
      · exact Except.noConfusion h
      · split at h
        · exact Except.noConfusion h
        · injection h with h2
          exact h2.symm
  · intro boot consFail buildOk nodeOk st h
    unfold caml_init_frame_descriptors_alloc at h
    split at h
    · injection h with h2
      rw [← h2]
    · split at h
      · injection h with h2
        rw [← h2]
      · split at h
        · injection h with h2
          rw [← h2]
        · exact Except.noConfusion h
  · intro boot consFail buildOk nodeOk s2 h
    unfold caml_init_frame_descriptors_alloc at h
    split at h
    · exact Except.noConfusion h
    · split at h
      · exact Except.noConfusion h
      · split at h
        · exact Except.noConfusion h
        · injection h with h2
          exact h2.symm

/-- Witness for C8: a failing index allocation during a registration aborts
with the old current version still in place. -/
theorem c8_witness :
    caml_register_frametable_alloc (fun a => a) 0 [] ⟨[], none⟩ true false
      true = .error ⟨[[]], none⟩ ∧
    (⟨[[]], none⟩ : GlobalState).current = (⟨[], none⟩ : GlobalState).current :=
  ⟨rfl, (c8_alloc_failure_publishes_nothing (fun a => a)).1 0 [] ⟨[], none⟩
    true false true ⟨[[]], none⟩ rfl⟩

/-- Claim C9: build_frame_descriptors is deterministic: two runs over the
same boot tables and the same registered tables (whatever completed-cycle
counts the registrations observed) publish identical current tables, equal
to the table built from the final chain, so the same size, mask and slot
placement. -/
theorem c9_build_deterministic (hash : Nat → Nat)
    (boot : List (List frame_descr))
    (regs1 regs2 : List (Nat × List frame_descr))
    (h : regs1.map Prod.snd = regs2.map Prod.snd) :
    ∃ t : caml_frame_descrs,
      (∃ m p, (runRegistrations hash boot regs1).current =
        some (.mk t m p)) ∧
      (∃ m p, (runRegistrations hash boot regs2).current =
        some (.mk t m p)) ∧
      t = build_frame_descriptors hash ((regs1.map Prod.snd).reverse ++
        boot.foldl (fun acc tb => tb :: acc) []) := by
  have hinit : ∃ marker prev,
      (caml_init_frame_descriptors hash boot).current =
        some (.mk (build_frame_descriptors hash
          (caml_init_frame_descriptors hash boot).frametables)
          marker prev) :=
    ⟨No_need_to_free, none, rfl⟩
  obtain ⟨⟨m1, p1, h1⟩, hft1⟩ := foldl_register_char hash regs1 _ hinit
  obtain ⟨⟨m2, p2, h2⟩, hft2⟩ := foldl_register_char hash regs2 _ hinit
  have hinitft : (caml_init_frame_descriptors hash boot).frametables =
      boot.foldl (fun acc tb => tb :: acc) [] := rfl
  refine ⟨build_frame_descriptors hash ((regs1.map Prod.snd).reverse ++
    boot.foldl (fun acc tb => tb :: acc) []),
    ⟨m1, p1, ?_⟩, ⟨m2, p2, ?_⟩, rfl⟩
  · show (regs1.foldl (fun s cr => caml_register_frametable hash cr.1 cr.2 s)
      (caml_init_frame_descriptors hash boot)).current = _
    rw [h1, hft1, hinitft]
  · show (regs2.foldl (fun s cr => caml_register_frametable hash cr.1 cr.2 s)
      (caml_init_frame_descriptors hash boot)).current = _
    rw [h2, hft2, hinitft, ← h]

/-- Witness for C9: two runs registering the same table under different
observed cycle counts publish the same current table. -/
theorem c9_witness :
    ∃ t : caml_frame_descrs,
      (∃ m p, (runRegistrations (fun a => a) [[⟨4096, 0, 0⟩]]
        [(0, [⟨4097, 0, 0⟩])]).current = some (.mk t m p)) ∧
      (∃ m p, (runRegistrations (fun a => a) [[⟨4096, 0, 0⟩]]
        [(7, [⟨4097, 0, 0⟩])]).current = some (.mk t m p)) ∧
      t = build_frame_descriptors (fun a => a)
        [[⟨4097, 0, 0⟩], [⟨4096, 0, 0⟩]] :=
  c9_build_deterministic (fun a => a) [[⟨4096, 0, 0⟩]]
    [(0, [⟨4097, 0, 0⟩])] [(7, [⟨4097, 0, 0⟩])] rfl

/-- Claim C10: every reachable state has a current version whose whole chain
satisfies the invariant that the free_prev_after_cycle marker equals
No_need_to_free exactly when the prev link is empty; and once the marker is
No_need_to_free no uintnat cycle count makes the accessor free anything
again, so a predecessor is freed at most once. -/
theorem c10_marker_invariant_no_double_free (hash : Nat → Nat)
    (s : GlobalState) (hreach : Reachable hash s) :
    (∃ ft, s.current = some ft ∧ VersionInv ft) ∧
    (∀ ft c, s.current = some ft →
      ft.free_prev_after_cycle = No_need_to_free → c ≤ No_need_to_free →
      (caml_get_frame_descrs c s).2 = s) := by
  refine ⟨?_, fun ft c hcur hmk hc =>
    get_noop_of_marker_max c s ft hcur hmk hc⟩
  induction hreach with
  | init boot => exact ⟨_, rfl, by simp [VersionInv]⟩
  | register c tbl s hs hc ih =>
    obtain ⟨ft, hcur, hinv⟩ := ih
    refine ⟨.mk (build_frame_descriptors hash (tbl :: s.frametables)) c
      s.current, rfl, ?_⟩
    rw [hcur]
    have hne : c ≠ No_need_to_free := by omega
    simp [VersionInv, hne, hinv]
  | get c s hs hc ih =>
    obtain ⟨ft, hcur, hinv⟩ := ih
    cases ft with
    | mk tbl marker prev =>
      by_cases hlt : marker < c
      · cases prev with
        | some p =>
          refine ⟨.mk tbl No_need_to_free none, ?_, by simp [VersionInv]⟩
          unfold caml_get_frame_descrs
          rw [hcur]
          simp [hlt]
        | none =>
          refine ⟨.mk tbl marker none, ?_, hinv⟩
          unfold caml_get_frame_descrs
          rw [hcur]
          simp [hlt]
          exact hcur
      · refine ⟨.mk tbl marker prev, ?_, hinv⟩
        unfold caml_get_frame_descrs
        rw [hcur]
        simp [hlt]
        exact hcur

/-- Witness for C10 at the freshly initialised state. -/
theorem c10_witness :
    ∃ ft, (caml_init_frame_descriptors (fun a => a) []).current = some ft ∧
      VersionInv ft :=
  (c10_marker_invariant_no_double_free (fun a => a) _ (.init [])).1
